import Mathlib

/-!
Verification of the quark2 predictive prefetch filesystem.

The development shallowly embeds the core subsystems of the repository:
the whole-file byte cache and its fetch worker (`modules/fcache.py`),
the predictor suite (`modules/OPT_base.py`, `modules/OPT_swg.py`,
`modules/OPT_markov.py`, `modules/OPT_markovadaptive.py`) and the
read-path integrator (`quark.py`).  Paths are Lean `String`s, file bytes
are `List Nat`, Python floats are modelled as rationals.
-/

set_option maxHeartbeats 1000000

/-! ## Byte cache and fetch worker (`modules/fcache.py`) -/

/-- A cache entry, `{'data': ..., 'size': ...}` in `FileCacheManager`.
`data` models the `bytearray` buffer, `size` the running `size` field
(which the source maintains separately from the buffer length). -/
structure CEntry where
  data : List Nat
  size : Nat
deriving Repr, DecidableEq

/-- The environment of a cache run: the immutable backing directory
(`fs p = none` means the file does not exist), the `memory_limit` and the
`chunk_size` constructor arguments of `FileCacheManager`. -/
structure Env where
  fs : String → Option (List Nat)
  memoryLimit : Nat
  chunkSize : Nat

/-- The mutable state of `FileCacheManager`, observed at lock granularity:
`cache` is the `OrderedDict` (front = oldest, i.e. the LRU eviction end;
back = youngest), `total` is `current_cache_size`, `queue` is the FIFO
`read_queue`, and `loading` records the in-progress load of
`_file_reader_thread`: the path being read, the number of bytes consumed
from the backing file so far, and whether this load has inserted the
cache entry (the Python `file_data` buffer is aliased into the entry
exactly when the entry was created by this load). -/
structure CState where
  cache : List (String × CEntry)
  total : Nat
  queue : List String
  loading : Option (String × Nat × Bool)
deriving Repr, DecidableEq

/-- The empty initial state of `FileCacheManager.__init__`. -/
def initCState : CState := ⟨[], 0, [], none⟩

/-- First-match association lookup, modelling `dict` access keyed by the
path string. -/
def lookupEntry : List (String × CEntry) → String → Option CEntry
  | [], _ => none
  | (q, e) :: rest, p => if q = p then some e else lookupEntry rest p

/-- Remove every binding of a key (the `OrderedDict` holds each key once,
so this removes the unique binding). -/
def removeKey : List (String × CEntry) → String → List (String × CEntry)
  | [], _ => []
  | (k, e) :: rest, p =>
    if k = p then removeKey rest p else (k, e) :: removeKey rest p

/-- `OrderedDict.move_to_end`: move the binding of `p` to the young end;
identity when `p` is absent. -/
def moveToEnd (c : List (String × CEntry)) (p : String) : List (String × CEntry) :=
  match lookupEntry c p with
  | none => c
  | some e => removeKey c p ++ [(p, e)]

/-- `FileCacheManager.request_file` (fcache.py lines 18-27).
`os.path.getsize` raises `FileNotFoundError` when the file is missing;
otherwise an oversize file is refused with a diagnostic, a resident file
is touched, and anything else is enqueued. -/
def requestFile (env : Env) (s : CState) (fp : String) : Except String CState :=
  match env.fs fp with
  | none => .error "FileNotFoundError"
  | some bs =>
    if bs.length > env.memoryLimit then .ok s
    else if (lookupEntry s.cache fp).isSome then
      .ok { s with cache := moveToEnd s.cache fp }
    else .ok { s with queue := s.queue ++ [fp] }

/-- `FileCacheManager.is_in_cache` (fcache.py lines 29-33): returns the
buffer and the size field of a resident entry, `(None, 0)` otherwise. -/
def isInCache (s : CState) (fp : String) : Option (List Nat) × Nat :=
  match lookupEntry s.cache fp with
  | none => (none, 0)
  | some e => (some e.data, e.size)

/-- The eviction loop of `_file_reader_thread` (fcache.py lines 74-78):
`while current_cache_size > memory_limit: popitem(last=False)`.
Popping from an empty dict raises in Python; that state is unreachable
(the running total always equals the sum of resident sizes), and the
model returns the empty cache there. -/
def evictLoop (limit : Nat) : List (String × CEntry) → Nat → List (String × CEntry) × Nat
  | [], total => ([], total)
  | (k, e) :: rest, total =>
    if total ≤ limit then ((k, e) :: rest, total)
    else evictLoop limit rest (total - e.size)

/-- The worker's pre-check on a popped item that is already resident
(fcache.py lines 49-52): skip with a recency touch when the resident
size matches the backing size, re-open the file otherwise. -/
def beginFetchHit (s : CState) (fp : String) (rest : List String) (bs : List Nat)
    (e : CEntry) : CState :=
  if e.size = bs.length then
    { s with queue := rest, cache := moveToEnd s.cache fp }
  else { s with queue := rest, loading := some (fp, 0, false) }

/-- Processing of one popped queue item by `_file_reader_thread`
(fcache.py lines 44-52): skip it if it does not exist, run the resident
pre-check if present, and otherwise open the file and start a chunked
load. -/
def beginFetchItem (env : Env) (s : CState) (fp : String) (rest : List String) : CState :=
  match env.fs fp with
  | none => { s with queue := rest }
  | some bs =>
    match lookupEntry s.cache fp with
    | some e => beginFetchHit s fp rest bs e
    | none => { s with queue := rest, loading := some (fp, 0, false) }

/-- The head of the worker loop of `_file_reader_thread` (fcache.py lines
42-52): pop one queued path and process it.  A no-op while a load is
already in progress (the single worker is busy) or the queue is
empty. -/
def beginFetch (env : Env) (s : CState) : CState :=
  match s.loading with
  | some _ => s
  | none =>
    match s.queue with
    | [] => s
    | fp :: rest => beginFetchItem env s fp rest

/-- One iteration of the chunk loop of `_file_reader_thread` (fcache.py
lines 54-78), i.e. one lock-held critical section: read the next chunk
(an empty chunk breaks the loop), extend the accumulated buffer, create
or update the cache entry, touch recency, and run the eviction loop.
The source updates only the `size` field of a pre-existing entry, so the
`data` buffer is refreshed exactly when the entry was inserted by this
load (the entry then aliases the Python-side `file_data` buffer). -/
def chunkStepLoad (env : Env) (s : CState) (fp : String) (off : Nat) (ins : Bool)
    (bs : List Nat) : CState :=
  if ((bs.drop off).take env.chunkSize).isEmpty then { s with loading := none }
  else
    match lookupEntry s.cache fp with
        | none =>
          { s with
            cache := (evictLoop env.memoryLimit
              (s.cache ++ [(fp, ⟨bs.take (off + ((bs.drop off).take env.chunkSize).length),
                ((bs.drop off).take env.chunkSize).length⟩)])
              (s.total + ((bs.drop off).take env.chunkSize).length)).1,
            total := (evictLoop env.memoryLimit
              (s.cache ++ [(fp, ⟨bs.take (off + ((bs.drop off).take env.chunkSize).length),
                ((bs.drop off).take env.chunkSize).length⟩)])
              (s.total + ((bs.drop off).take env.chunkSize).length)).2,
            loading := some (fp, off + ((bs.drop off).take env.chunkSize).length, true) }
        | some e =>
          { s with
            cache := (evictLoop env.memoryLimit
              (removeKey s.cache fp ++
                [(fp, ⟨if ins then bs.take (off + ((bs.drop off).take env.chunkSize).length)
                    else e.data,
                  e.size + ((bs.drop off).take env.chunkSize).length⟩)])
              (s.total + ((bs.drop off).take env.chunkSize).length)).1,
            total := (evictLoop env.memoryLimit
              (removeKey s.cache fp ++
                [(fp, ⟨if ins then bs.take (off + ((bs.drop off).take env.chunkSize).length)
                    else e.data,
                  e.size + ((bs.drop off).take env.chunkSize).length⟩)])
              (s.total + ((bs.drop off).take env.chunkSize).length)).2,
            loading := some (fp, off + ((bs.drop off).take env.chunkSize).length, ins) }

/-- One `chunkStepLoad` of the load in progress when the backing file
still exists, terminating the load otherwise (`os.path.exists` was
checked before opening; with an immutable backing store the file cannot
vanish mid-read). -/
def chunkStepTriple (env : Env) (s : CState) (fp : String) (off : Nat) (ins : Bool) :
    CState :=
  match env.fs fp with
  | none => { s with loading := none }
  | some bs => chunkStepLoad env s fp off ins bs

/-- One iteration of the chunk loop as seen from the worker: a no-op when
no load is in progress, otherwise one `chunkStepTriple` of the load in
progress. -/
def chunkStep (env : Env) (s : CState) : CState :=
  match s.loading with
  | none => s
  | some (fp, off, ins) => chunkStepTriple env s fp off ins

/-- Iterate the chunk loop; `chunkStep` is the identity once the load has
finished, so any sufficiently large fuel runs a load to completion. -/
def runChunks (env : Env) (s : CState) : Nat → CState
  | 0 => s
  | n + 1 => runChunks env (chunkStep env s) n

/-- A recency touch of the cache order on a lookup hit. -/
def touchRecency (s : CState) (p : String) : CState :=
  { s with cache := moveToEnd s.cache p }

/-- Modelled from the spec: the byte-range lookup `lookup_range` /
`read_cache` is invoked by the read handler (quark.py line 72 calls
`self.CACHE.read_cache(path, size, offset)`) but is absent from
`modules/fcache.py`, which defines only `is_in_cache`.  Following §4.2 of
the spec: it returns the bytes `[offset, offset+size)` of the cached file
when the path is resident and touches its recency, returns `none`
otherwise, and an out-of-range slice returns whatever fits (the empty
byte sequence when `offset` is at or past the file length); it never
fails.  Presence in the cache map is taken as residence, since an entry
stores no expected length. -/
def readCacheCall (s : CState) (p : String) (size offset : Nat) :
    CState × Option (List Nat) :=
  match lookupEntry s.cache p with
  | none => (s, none)
  | some e => (touchRecency s p, some ((e.data.drop offset).take size))

/-- The value returned by the spec-modelled `read_cache` lookup. -/
def readCacheVal (s : CState) (p : String) (size offset : Nat) : Option (List Nat) :=
  (readCacheCall s p size offset).2

/-- Sum of the `size` fields of the resident entries. -/
def sumSizes (c : List (String × CEntry)) : Nat :=
  (c.map (fun x => x.2.size)).sum

/-- The cache states reachable by any sequence of `request_file` calls,
fetch-worker iterations and lookups (a lookup mutates at most the
recency order). -/
inductive Reach (env : Env) : CState → Prop where
  | init : Reach env initCState
  | request {s s' : CState} {fp : String} :
      Reach env s → requestFile env s fp = .ok s' → Reach env s'
  | fetchStart {s : CState} : Reach env s → Reach env (beginFetch env s)
  | fetchChunk {s : CState} : Reach env s → Reach env (chunkStep env s)
  | touch {s : CState} {p : String} : Reach env s → Reach env (touchRecency s p)

/-! ## Predictor contract (`modules/OPT_base.py`) -/

/-- `Base_Opt.last_file_read` (OPT_base.py lines 8-15) applied to a
history list.  `if not other_than` is Python truthiness, so passing the
empty string behaves like passing `None`; otherwise the history is
walked backward until an entry differing from `other_than` is found. -/
def lastFileRead (hist : List String) (otherThan : Option String) : Option String :=
  if hist.isEmpty then none
  else
    match otherThan with
    | none => hist.getLast?
    | some t => if t = "" then hist.getLast? else hist.reverse.find? (fun f => f ≠ t)

/-- The state of `Base_Opt`: just the access history. -/
structure BaseState where
  history : List String
deriving Repr, DecidableEq

/-- `Base_Opt.log_read` (OPT_base.py lines 17-19): appends to the
history unconditionally. -/
def baseLogRead (s : BaseState) (p : String) : BaseState :=
  ⟨s.history ++ [p]⟩

/-- Python `max(xs, key=...)` over an association row: the first element
attaining the maximal value (later elements replace the running best
only when strictly greater).  `none` on the empty row, where Python
raises `ValueError`. -/
def pyMaxFirst {β : Type} [LinearOrder β] : List (String × β) → Option String
  | [] => none
  | (k, v) :: rest =>
    some ((rest.foldl (fun acc x => if x.2 > acc.2 then x else acc) (k, v)).1)

/-- `p` is the first-inserted element of maximal value in the row:
it occurs with some value `v`, every element before it is strictly
smaller, and no element exceeds it. -/
def FirstMax {β : Type} [LinearOrder β] (row : List (String × β)) (p : String) : Prop :=
  ∃ pre v post, row = pre ++ (p, v) :: post ∧
    (∀ x ∈ pre, x.2 < v) ∧ (∀ x ∈ row, x.2 ≤ v)

/-! ## Successor-graph predictor (`modules/OPT_swg.py`) -/

/-- The state of `SWG_Opt`: the history plus the weighted successor
graph, each row in successor insertion order. -/
structure SWGState where
  history : List String
  graph : List (String × List (String × Nat))
deriving Repr, DecidableEq

/-- The empty `SWG_Opt()` state. -/
def swgInit : SWGState := ⟨[], []⟩

/-- Increment the weight of `succ` in a row, creating it at weight 1 at
the end of the row when absent (`graph[l][f] = 0` then `+= 1`). -/
def bumpEdge : List (String × Nat) → String → List (String × Nat)
  | [], succ => [(succ, 1)]
  | (k, v) :: rest, succ =>
    if k = succ then (k, v + 1) :: rest else (k, v) :: bumpEdge rest succ

/-- Add one to the weight of the edge `src → succ`, creating the row for
`src` at the end of the graph when absent. -/
def swgAddEdge : List (String × List (String × Nat)) → String → String →
    List (String × List (String × Nat))
  | [], src, succ => [(src, [(succ, 1)])]
  | (k, row) :: rest, src, succ =>
    if k = src then (k, bumpEdge row succ) :: rest
    else (k, row) :: swgAddEdge rest src succ

/-- `SWG_Opt.log_read` (OPT_swg.py lines 25-34): append to the history,
then find the last entry distinct from the one just read and increment
the edge from it.  `if last_file_read:` is Python truthiness, so an
empty-string predecessor adds no edge. -/
def swgLog (s : SWGState) (p : String) : SWGState :=
  match lastFileRead (s.history ++ [p]) (some p) with
  | some prev =>
    if prev ≠ "" then ⟨s.history ++ [p], swgAddEdge s.graph prev p⟩
    else ⟨s.history ++ [p], s.graph⟩
  | none => ⟨s.history ++ [p], s.graph⟩

/-- First-match lookup of an association list, modelling `dict` access
(keys are path strings or context tuples). -/
def lookupRow {κ β : Type} [DecidableEq κ] : List (κ × β) → κ → Option β
  | [], _ => none
  | (k, v) :: rest, p => if k = p then some v else lookupRow rest p

/-- `SWG_Opt.predict_nexts` (OPT_swg.py lines 36-41): greedy argmax over
the successors of the context, `None` when the context has no row.  The
method reads `self` without mutating it, which the embedding records by
returning the state unchanged. -/
def swgPredict (s : SWGState) (c : String) : SWGState × Option String :=
  (s, match lookupRow s.graph c with
      | none => none
      | some row => pyMaxFirst row)

/-- The successor row of a context, empty when absent. -/
def swgSuccessors (s : SWGState) (c : String) : List (String × Nat) :=
  (lookupRow s.graph c).getD []

/-! ## Decayed variable-order Markov predictor (`modules/OPT_markov.py`) -/

/-- The state of `Markov_Opt`: the `order` and `decay_factor`
parameters, the history, and the `defaultdict(Counter)` transition
table in insertion order with rational counts. -/
structure MarkovState where
  order : Nat
  decay : ℚ
  history : List String
  transitions : List (List String × List (String × ℚ))
deriving Repr, DecidableEq

/-- `Markov_Opt()` with the default `order=3, decay_factor=0.95`. -/
def markovInit : MarkovState := ⟨3, 19/20, [], []⟩

/-- `Markov_Opt._get_context` (OPT_markov.py lines 18-24): the last
`min n (length h)` entries of the history, the empty tuple when that is
zero. -/
def getContext (h : List String) (n : Nat) : List String :=
  let cs := min n h.length
  if cs = 0 then [] else h.drop (h.length - cs)

/-- `Counter[c] += 1`: increment in place, or append `(c, 1)` when the
key is absent. -/
def mBump : List (String × ℚ) → String → List (String × ℚ)
  | [], c => [(c, 1)]
  | (k, v) :: rest, c =>
    if k = c then (k, v + 1) :: rest else (k, v) :: mBump rest c

/-- Multiply every successor other than `c` by the decay factor
(OPT_markov.py lines 38-40): each key keeps its position, its count is
multiplied unless it is the just-logged successor. -/
def mDecayOthers : List (String × ℚ) → String → ℚ → List (String × ℚ)
  | [], _, _ => []
  | (k, v) :: rest, c, δ => (k, if k = c then v else v * δ) :: mDecayOthers rest c δ

/-- Apply a row transformation at a context key, creating an empty row at
the end of the table when absent (`defaultdict` access). -/
def mUpdateCtx : List (List String × List (String × ℚ)) → List String →
    (List (String × ℚ) → List (String × ℚ)) → List (List String × List (String × ℚ))
  | [], ctx, f => [(ctx, f [])]
  | (k, row) :: rest, ctx, f =>
    if k = ctx then (k, f row) :: rest else (k, row) :: mUpdateCtx rest ctx f

/-- `Markov_Opt.log_read` (OPT_markov.py lines 28-46): for each
`i = 1 .. min(order, len(history))` increment
`transitions[_get_context(i)][file_read]` and decay the other successors
of that context, then append to the history. -/
def markovLog (s : MarkovState) (c : String) : MarkovState :=
  let t := (List.range' 1 (min s.order s.history.length)).foldl
    (fun t n => mUpdateCtx t (getContext s.history n)
      (fun row => mDecayOthers (mBump row c) c s.decay)) s.transitions
  { s with history := s.history ++ [c], transitions := t }

/-- The context-length search of `Markov_Opt.predict_nexts`
(OPT_markov.py lines 62-76): try context lengths from longest to
shortest; a non-empty row yields its most-common successor
(`_file_exists` is constantly true in the source). -/
def markovTry (s : MarkovState) : List Nat → Option String
  | [] => none
  | n :: rest =>
    let ctx := getContext s.history n
    if ctx = [] then markovTry s rest
    else
      match lookupRow s.transitions ctx with
      | none => markovTry s rest
      | some row =>
        match pyMaxFirst row with
        | some p => some p
        | none => markovTry s rest

/-- `Counter` addition by `v`, used for `Counter.update`. -/
def mBumpBy : List (String × ℚ) → String → ℚ → List (String × ℚ)
  | [], c, v => [(c, v)]
  | (k, w) :: rest, c, v =>
    if k = c then (k, w + v) :: rest else (k, w) :: mBumpBy rest c v

/-- `all_files.update(destinations)`: add every count of `row` into the
accumulator, appending unseen keys in row order. -/
def counterUpdate (acc row : List (String × ℚ)) : List (String × ℚ) :=
  row.foldl (fun a kv => mBumpBy a kv.1 kv.2) acc

/-- The fallback of `Markov_Opt.predict_nexts` (OPT_markov.py lines
78-87): the most frequent successor over all contexts. -/
def markovFallback (s : MarkovState) : Option String :=
  pyMaxFirst (s.transitions.foldl (fun a x => counterUpdate a x.2) [])

/-- `Markov_Opt.predict_nexts` (OPT_markov.py lines 48-87).  When a
context path is supplied the method first calls `self.log_read` on it,
mutating the predictor; then it searches context lengths
`order, order-1, ..., 1` and finally the global fallback. -/
def markovPredict (s : MarkovState) (c : Option String) : MarkovState × Option String :=
  let s1 := match c with
    | some p => markovLog s p
    | none => s
  let lens := (List.range s1.order).reverse.map (· + 1)
  match markovTry s1 lens with
  | some p => (s1, some p)
  | none => (s1, markovFallback s1)

/-- The rational count stored for successor `d` under context `ctx`,
zero when absent. -/
def rowValM (t : List (List String × List (String × ℚ))) (ctx : List String)
    (d : String) : ℚ :=
  match lookupRow t ctx with
  | none => 0
  | some row => ((lookupRow row d).getD 0)

/-! ## Adaptive weighted-recency Markov predictor
(`modules/OPT_markovadaptive.py`) -/

/-- The state of `AdaptiveMarkov_Opt`: clamped parameters, history, and
the single-step transition table with rational scores. -/
structure AdaptiveState where
  historyLength : Nat
  learningRate : ℚ
  decay : ℚ
  history : List String
  transitions : List (String × List (String × ℚ))
deriving Repr, DecidableEq

/-- `AdaptiveMarkov_Opt.__init__` (OPT_markovadaptive.py lines 18-23):
clamp the history window to `[1, 10]`, the learning rate to
`[0.01, 1.0]` and the decay to `[0.5, 0.99]`. -/
def mkAdaptive (hl : Nat) (lr dec : ℚ) : AdaptiveState :=
  ⟨min (max 1 hl) 10, min (max (1/100) lr) 1, min (max (1/2) dec) (99/100), [], []⟩

/-- Add `amt` to `transitions[prev][c]`, creating the outer and inner
entries at the end when absent (`defaultdict(lambda: defaultdict(float))`). -/
def adaptiveBump : List (String × List (String × ℚ)) → String → String → ℚ →
    List (String × List (String × ℚ))
  | [], prev, c, amt => [(prev, [(c, amt)])]
  | (k, row) :: rest, prev, c, amt =>
    if k = prev then (k, mBumpBy row c amt) :: rest
    else (k, row) :: adaptiveBump rest prev c amt

/-- The last `n` elements of a list (`h[-n:]` for `n ≥ 1`). -/
def takeLastN (h : List String) (n : Nat) : List String :=
  h.drop (h.length - n)

/-- `AdaptiveMarkov_Opt.log_read` (OPT_markovadaptive.py lines 25-35):
append to the history; then for each entry `prev` at index `i` of the
last `historyLength` entries of the prior history with `prev ≠ current`,
add `learningRate * decay ^ (W - 1 - i)` to
`transitions[prev][current]`, where `W` is the window length. -/
def adaptiveLog (s : AdaptiveState) (c : String) : AdaptiveState :=
  let window := takeLastN s.history s.historyLength
  let t := window.enum.foldl
    (fun t iz =>
      if iz.2 ≠ c then
        adaptiveBump t iz.2 c (s.learningRate * s.decay ^ (window.length - 1 - iz.1))
      else t)
    s.transitions
  { s with history := s.history ++ [c], transitions := t }

/-- The score stored for the transition `p → q`, zero when absent. -/
def transVal (t : List (String × List (String × ℚ))) (p q : String) : ℚ :=
  match lookupRow t p with
  | none => 0
  | some row => (lookupRow row q).getD 0

/-- Stable descending sort by score (`sorted(..., key=value,
reverse=True)`), ties kept in insertion order. -/
def pySortDesc (l : List (String × ℚ)) : List (String × ℚ) :=
  l.mergeSort (fun a b => b.2 ≤ a.2)

/-- The score accumulation of `AdaptiveMarkov_Opt.predict_nexts`
(OPT_markovadaptive.py lines 47-62): for each entry of the relevant
history window, add its outgoing transition scores weighted by
recency. -/
def adaptiveScores (s : AdaptiveState) (relevant : List String) : List (String × ℚ) :=
  relevant.enum.foldl
    (fun acc iz =>
      match lookupRow s.transitions iz.2 with
      | none => acc
      | some row =>
        row.foldl (fun a kv =>
          mBumpBy a kv.1 (kv.2 * s.decay ^ (relevant.length - 1 - iz.1))) acc)
    []

/-- `AdaptiveMarkov_Opt.predict_nexts` (OPT_markovadaptive.py lines
37-78): work on a local copy of the history extended by the context
path when it differs from the tail, accumulate recency-weighted scores,
delete the current file, and return the top prediction (`k = 1`) or the
top `k` list.  The method never assigns to `self`, which the embedding
records by returning the state unchanged. -/
def adaptivePredict (s : AdaptiveState) (c : Option String) (k : Nat) :
    AdaptiveState × Option (Sum String (List String)) :=
  (s,
    let context := match c with
      | some p =>
        if p ≠ "" ∧ s.history.getLast? ≠ some p then s.history ++ [p] else s.history
      | none => s.history
    if context.isEmpty then none
    else
      let relevant := takeLastN context s.historyLength
      let scores := adaptiveScores s relevant
      let scores := match context.getLast? with
        | some cur => scores.filter (fun kv => kv.1 ≠ cur)
        | none => scores
      if scores.isEmpty then none
      else if k = 1 then (pyMaxFirst scores).map Sum.inl
      else
        match (pySortDesc scores).take k with
        | [] => none
        | l => some (Sum.inr (l.map Prod.fst)))

/-! ## Read-path integrator (`quark.py`) -/

/-- `str.lstrip('/')`: drop every leading slash. -/
def lstripSlash (p : String) : String :=
  ⟨p.data.dropWhile (· == '/')⟩

/-- Whether a path string starts with a slash. -/
def startsWithSlash (p : String) : Bool :=
  match p.data with
  | '/' :: _ => true
  | _ => false

/-- Whether a path string ends with a slash. -/
def endsWithSlash (p : String) : Bool :=
  match p.data.getLast? with
  | some '/' => true
  | _ => false

/-- POSIX `os.path.join` for two components: an absolute second
component replaces the first; otherwise the components are joined with a
separator unless the first already ends with one (or is empty). -/
def osPathJoin (a b : String) : String :=
  if startsWithSlash b then b
  else if a = "" ∨ endsWithSlash a then a ++ b
  else a ++ "/" ++ b

/-- `QuarkFS.full_path` (quark.py lines 52-53):
`os.path.join(self.root, partial.lstrip('/'))`. -/
def fullPath (root p : String) : String :=
  osPathJoin root (lstripSlash p)

/-- The duck-typed predictor handle held by `QuarkFS` (`OPTM: Base_Opt`):
`last_file_read`, `log_read`, and `predict_nexts(path,
num_predictions)`, which may raise (`Markov_Opt.predict_nexts` and
`Base_Opt.predict_nexts` accept no `num_predictions` keyword, so the
integrator's call raises `TypeError` on them) and may return a single
path, a list, or `None`. -/
structure Predictor (σ : Type) where
  lastFileRead : σ → Option String
  logRead : σ → String → σ
  predictNexts : σ → String → Nat → Except String (σ × Option (Sum String (List String)))

/-- The mutable state seen by `QuarkFS.read`: the predictor state, the
cache state, and the `enable_opt` flag. -/
structure FSState (σ : Type) where
  optm : σ
  cacheSt : CState
  enableOpt : Bool
deriving DecidableEq

/-- Enqueue each predicted path in turn (`for file in predictions:
self.CACHE.request_file(file)`), propagating any exception. -/
def requestAll (env : Env) : CState → List String → Except String CState
  | c, [] => .ok c
  | c, p :: rest =>
    match requestFile env c p with
    | .error e => .error e
    | .ok c' => requestAll env c' rest

/-- The nested `log_predict` of `QuarkFS.read` (quark.py lines 56-68):
when the last logged file differs from `path`, log it, and when
optimizations are enabled ask the predictor for two predictions and
enqueue each on the fetch queue.  The source wraps none of this in a
handler, so any exception propagates. -/
def logPredict {σ : Type} (env : Env) (P : Predictor σ) (s : FSState σ)
    (path : String) : Except String (FSState σ) :=
  if P.lastFileRead s.optm ≠ some path then
    let o1 := P.logRead s.optm path
    if s.enableOpt then
      match P.predictNexts o1 path 2 with
      | .error e => .error e
      | .ok (o2, none) => .ok { s with optm := o2 }
      | .ok (o2, some (.inl p)) =>
        if p = "" then .ok { s with optm := o2 }
        else
          match requestFile env s.cacheSt p with
          | .error e => .error e
          | .ok c' => .ok { s with optm := o2, cacheSt := c' }
      | .ok (o2, some (.inr ps)) =>
        match requestAll env s.cacheSt ps with
        | .error e => .error e
        | .ok c' => .ok { s with optm := o2, cacheSt := c' }
    else .ok { s with optm := o1 }
  else .ok s

/-- `QuarkFS.read` (quark.py lines 55-80): query the spec-modelled
`read_cache`; a non-empty cached slice (`if buff_cached:` is Python
truthiness) is served from the cache, anything else falls back to
`os.lseek`/`os.read` on the backing descriptor `fh` (modelled by the
opened file's bytes); either way `log_predict` runs before the bytes are
returned, and an exception inside it propagates. -/
def quarkRead {σ : Type} (env : Env) (P : Predictor σ) (s : FSState σ)
    (path : String) (size offset : Nat) (fh : List Nat) :
    Except String (FSState σ × List Nat) :=
  let rc := readCacheCall s.cacheSt path size offset
  let s1 : FSState σ := { s with cacheSt := rc.1 }
  match rc.2 with
  | some bs =>
    if ¬bs.isEmpty then
      match logPredict env P s1 path with
      | .error e => .error e
      | .ok s' => .ok (s', bs)
    else
      match logPredict env P s1 path with
      | .error e => .error e
      | .ok s' => .ok (s', (fh.drop offset).take size)
  | none =>
    match logPredict env P s1 path with
    | .error e => .error e
    | .ok s' => .ok (s', (fh.drop offset).take size)

/-- The bytes `QuarkFS.read` serves once `log_predict` succeeds: the
cached slice when it is a non-empty hit, the backing-descriptor slice
otherwise. -/
def readServed (s : CState) (path : String) (size offset : Nat) (fh : List Nat) :
    List Nat :=
  match readCacheVal s path size offset with
  | some bs => if ¬bs.isEmpty then bs else (fh.drop offset).take size
  | none => (fh.drop offset).take size

/-- `AdaptiveMarkov_Opt` as a `QuarkFS` predictor handle. -/
def adaptiveP : Predictor AdaptiveState where
  lastFileRead s := lastFileRead s.history none
  logRead := adaptiveLog
  predictNexts s p k := .ok (adaptivePredict s (some p) k)

/-! ## Auxiliary notions used by the statements -/

/-- The keys of the cache in order. -/
def cacheKeys (c : List (String × CEntry)) : List String := c.map Prod.fst

/-- The rational count stored for `d` in a successor row, zero when
absent. -/
def rowRead (row : List (String × ℚ)) (d : String) : ℚ :=
  (lookupRow row d).getD 0

/-- Invariant holding between chunk iterations while the worker is
loading the file `fp` with backing bytes `bs` and has consumed `off`
bytes: the load fits the budget, the running total matches the resident
sizes within it, and either nothing has been inserted yet (`off = 0`)
or the entry for `fp` sits at the young end holding exactly the bytes
consumed so far. -/
def LoadInv (env : Env) (fp : String) (bs : List Nat) (s : CState) (off : Nat) : Prop :=
  env.fs fp = some bs ∧ off ≤ bs.length ∧ bs.length ≤ env.memoryLimit ∧
  s.total = sumSizes s.cache ∧ s.total ≤ env.memoryLimit ∧
  (if off = 0
   then s.loading = some (fp, 0, false) ∧ fp ∉ cacheKeys s.cache
   else s.loading = some (fp, off, true) ∧
     ∃ front, s.cache = front ++ [(fp, ⟨bs.take off, off⟩)] ∧ fp ∉ cacheKeys front)

/-- A three-byte backing file `f` under a 100-byte budget with 2-byte
chunks: the concrete environment used to exercise the fetch worker. -/
def env3 : Env := ⟨fun p => if p = "f" then some [1, 2, 3] else none, 100, 2⟩

example : (swgPredict (List.foldl swgLog swgInit ["A","B","A","B","A","C"]) "A").2
    = some "B" := by decide
example :
    transVal (List.foldl adaptiveLog (mkAdaptive 3 (1/10) (9/10))
      ["a","b","c","d"]).transitions "a" "d" = 81/1000 := by
  simp [adaptiveLog, adaptiveBump, mBumpBy, takeLastN, transVal, lookupRow, mkAdaptive,
    List.enum, List.enumFrom]
  norm_num

/-! ## Theorems -/

/-- C1: for every path, size and offset, the cache lookup invoked by the
read handler returns the byte range `[offset, offset+size)` when the
file is resident in the cache and none when it is not; when the offset
is at or past the file length it returns the empty byte sequence rather
than an error (the lookup is a total function and never raises). -/
theorem c1_lookup_range (s : CState) (p : String) (size offset : Nat) :
    (∀ e, lookupEntry s.cache p = some e →
      readCacheVal s p size offset = some ((e.data.drop offset).take size)) ∧
    (lookupEntry s.cache p = none → readCacheVal s p size offset = none) ∧
    (∀ e, lookupEntry s.cache p = some e → e.data.length ≤ offset →
      readCacheVal s p size offset = some []) := by
  refine ⟨?_, ?_, ?_⟩
  · intro e he
    simp [readCacheVal, readCacheCall, he]
  · intro he
    simp [readCacheVal, readCacheCall, he]
  · intro e he hoff
    simp [readCacheVal, readCacheCall, he, List.drop_eq_nil_of_le hoff]

/-- Witness for C1 at a concrete one-entry cache: an in-range slice and
an offset past the file length. -/
theorem c1_lookup_range_witness :
    readCacheVal ⟨[("a", ⟨[5, 6, 7], 3⟩)], 3, [], none⟩ "a" 2 1
      = some (([5, 6, 7].drop 1).take 2) ∧
    readCacheVal ⟨[("a", ⟨[5, 6, 7], 3⟩)], 3, [], none⟩ "a" 2 5 = some [] :=
  ⟨(c1_lookup_range ⟨[("a", ⟨[5, 6, 7], 3⟩)], 3, [], none⟩ "a" 2 1).1 ⟨[5, 6, 7], 3⟩ (by decide),
   (c1_lookup_range ⟨[("a", ⟨[5, 6, 7], 3⟩)], 3, [], none⟩ "a" 2 5).2.2 ⟨[5, 6, 7], 3⟩
     (by decide) (by decide)⟩

/-- C5 counterexample: `log_read` appends unconditionally, so logging
the same path twice from the empty successor-graph predictor leaves a
history of length two, not the history of a single log. -/
theorem c5_counterexample :
    (swgLog (swgLog swgInit "a") "a").history = ["a", "a"] ∧
    (swgLog swgInit "a").history = ["a"] ∧
    (swgLog (swgLog swgInit "a") "a").history ≠ (swgLog swgInit "a").history := by
  decide

/-- C5 amended: every predictor's `log_read` appends to the history
unconditionally; the immediate-duplicate suppression lives in the read
handler, whose `log_predict` only logs when the predictor's most recent
entry differs from the path being read and is a no-op otherwise. -/
theorem c5_amended :
    (∀ (s : BaseState) (p : String), (baseLogRead s p).history = s.history ++ [p]) ∧
    (∀ (s : SWGState) (p : String), (swgLog s p).history = s.history ++ [p]) ∧
    (∀ (s : MarkovState) (p : String), (markovLog s p).history = s.history ++ [p]) ∧
    (∀ (s : AdaptiveState) (p : String), (adaptiveLog s p).history = s.history ++ [p]) ∧
    (∀ {σ : Type} (env : Env) (P : Predictor σ) (s : FSState σ) (path : String),
      P.lastFileRead s.optm = some path → logPredict env P s path = .ok s) := by
  refine ⟨fun s p => rfl, fun s p => ?_, fun s p => rfl, fun s p => rfl, ?_⟩
  · unfold swgLog
    split <;> (try split) <;> rfl
  · intro σ env P s path h
    simp [logPredict, h]

/-- Witness for C5's amended handler clause: when the adaptive
predictor's last logged path equals the path being read, `log_predict`
leaves the state untouched. -/
theorem c5_amended_witness :
    logPredict ⟨fun _ => none, 0, 0⟩ adaptiveP
      ⟨⟨5, 1/10, 9/10, ["/a"], []⟩, initCState, true⟩ "/a"
      = .ok ⟨⟨5, 1/10, 9/10, ["/a"], []⟩, initCState, true⟩ :=
  c5_amended.2.2.2.2 ⟨fun _ => none, 0, 0⟩ adaptiveP
    ⟨⟨5, 1/10, 9/10, ["/a"], []⟩, initCState, true⟩ "/a" (by decide)

/-- C6 counterexample: the decayed Markov predictor's `predict_nexts`
logs the supplied context path, so the history after the call differs
from the history before it. -/
theorem c6_counterexample :
    (markovPredict markovInit (some "a")).1.history = ["a"] ∧
    markovInit.history = [] ∧
    (markovPredict markovInit (some "a")).1.history ≠ markovInit.history := by
  decide

/-- C6 amended: the successor-graph and adaptive predictors leave the
predictor state unchanged when predicting from a supplied context, but
the decayed Markov predictor logs the context first: its state after
`predict_nexts(c)` is exactly the state after `log_read(c)`. -/
theorem c6_amended :
    (∀ (s : SWGState) (c : String), (swgPredict s c).1 = s) ∧
    (∀ (s : AdaptiveState) (c : Option String) (k : Nat), (adaptivePredict s c k).1 = s) ∧
    (∀ (s : MarkovState) (c : String), (markovPredict s (some c)).1 = markovLog s c) := by
  refine ⟨fun s c => rfl, fun s c k => rfl, fun s c => ?_⟩
  cases h : markovTry (markovLog s c)
      ((List.range (markovLog s c).order).reverse.map (· + 1)) <;>
    (simp only [markovPredict]; rw [h])

/-- C8 counterexample: the path mapper `full_path` is not idempotent
(applying it to its own output nests the root), and it does not collapse
a leading `./` segment, so `./a/b` and `a/b` do not share a key. -/
theorem c8_counterexample :
    fullPath "/r" (fullPath "/r" "a/b") ≠ fullPath "/r" "a/b" ∧
    fullPath "/r" "./a/b" ≠ fullPath "/r" "a/b" := by
  decide

/-- C8 amended: `full_path` joins the root with the path stripped of
leading slashes, so `/a/b` and `a/b` map to the same backing path while
`./a/b` does not; it is not idempotent; and the cache keys by the raw
supplied path, not the mapped one, so a cache entry keyed `a/b` misses a
read of `/a/b` even though both map to one backing file. -/
theorem c8_amended :
    (∀ root p, fullPath root ("/" ++ p) = fullPath root p) ∧
    fullPath "/r" "/a/b" = fullPath "/r" "a/b" ∧
    fullPath "/r" "./a/b" ≠ fullPath "/r" "a/b" ∧
    readCacheVal ⟨[("a/b", ⟨[1, 2], 2⟩)], 2, [], none⟩ "/a/b" 2 0 = none := by
  refine ⟨?_, by decide, by decide, by decide⟩
  intro root p
  have h : lstripSlash ("/" ++ p) = lstripSlash p := by
    simp [lstripSlash, String.data_append]
  simp [fullPath, h]

/-! ### The Python argmax and the successor-graph predictor -/

/-- The running best of Python `max` over the tail of a row: the result
dominates the accumulator and every element, and when it differs from
the accumulator it occurs in the tail preceded only by strictly smaller
elements. -/
theorem foldl_pyMax_spec {β : Type} [LinearOrder β] (rest : List (String × β))
    (acc r : String × β)
    (hr : rest.foldl (fun a x => if x.2 > a.2 then x else a) acc = r) :
    acc.2 ≤ r.2 ∧ (∀ x ∈ rest, x.2 ≤ r.2) ∧
    (r = acc ∨ ∃ pre post, rest = pre ++ r :: post ∧ acc.2 < r.2 ∧
      ∀ x ∈ pre, x.2 < r.2) := by
  induction rest generalizing acc with
  | nil =>
    cases hr
    exact ⟨le_refl _, by simp, Or.inl rfl⟩
  | cons y rest ih =>
    rw [List.foldl_cons] at hr
    by_cases hy : y.2 > acc.2
    · rw [if_pos hy] at hr
      obtain ⟨h1, h2, h3⟩ := ih y hr
      refine ⟨le_of_lt (lt_of_lt_of_le hy h1), ?_, ?_⟩
      · intro x hx
        rcases List.mem_cons.1 hx with rfl | hx
        · exact h1
        · exact h2 x hx
      · rcases h3 with heq | ⟨pre, post, hsplit, hlt, hpre⟩
        · subst heq
          exact Or.inr ⟨[], rest, rfl, hy, by simp⟩
        · refine Or.inr ⟨y :: pre, post, ?_, lt_trans hy hlt, ?_⟩
          · rw [hsplit]
            rfl
          · intro x hx
            rcases List.mem_cons.1 hx with rfl | hx
            · exact hlt
            · exact hpre x hx
    · rw [if_neg hy] at hr
      obtain ⟨h1, h2, h3⟩ := ih acc hr
      refine ⟨h1, ?_, ?_⟩
      · intro x hx
        rcases List.mem_cons.1 hx with rfl | hx
        · exact le_trans (not_lt.1 hy) h1
        · exact h2 x hx
      · rcases h3 with heq | ⟨pre, post, hsplit, hlt, hpre⟩
        · exact Or.inl heq
        · refine Or.inr ⟨y :: pre, post, ?_, hlt, ?_⟩
          · rw [hsplit]
            rfl
          · intro x hx
            rcases List.mem_cons.1 hx with rfl | hx
            · exact lt_of_le_of_lt (not_lt.1 hy) hlt
            · exact hpre x hx

/-- Python `max` over a row returns the first-inserted element of
maximal value. -/
theorem pyMaxFirst_firstMax {β : Type} [LinearOrder β] {row : List (String × β)}
    {p : String} (h : pyMaxFirst row = some p) : FirstMax row p := by
  cases row with
  | nil => simp [pyMaxFirst] at h
  | cons kv rest =>
    obtain ⟨k, v⟩ := kv
    simp only [pyMaxFirst, Option.some.injEq] at h
    obtain ⟨r, hr⟩ : ∃ r, rest.foldl (fun a x => if x.2 > a.2 then x else a) (k, v) = r :=
      ⟨_, rfl⟩
    rw [hr] at h
    obtain ⟨h1, h2, h3⟩ := foldl_pyMax_spec rest (k, v) r hr
    rcases h3 with heq | ⟨pre, post, hsplit, hlt, hpre⟩
    · subst heq
      subst h
      refine ⟨[], v, rest, rfl, by simp, ?_⟩
      intro x hx
      rcases List.mem_cons.1 hx with rfl | hx
      · exact le_refl _
      · exact h2 x hx
    · refine ⟨(k, v) :: pre, r.2, post, ?_, ?_, ?_⟩
      · rw [← h, Prod.mk.eta, hsplit]
        rfl
      · intro x hx
        rcases List.mem_cons.1 hx with rfl | hx
        · exact hlt
        · exact hpre x hx
      · intro x hx
        rcases List.mem_cons.1 hx with rfl | hx
        · exact le_of_lt hlt
        · exact h2 x hx

/-- A successful association lookup locates a member. -/
theorem lookupRow_mem {κ β : Type} [DecidableEq κ] {l : List (κ × β)} {k : κ} {v : β}
    (h : lookupRow l k = some v) : (k, v) ∈ l := by
  induction l with
  | nil => simp [lookupRow] at h
  | cons kv rest ih =>
    obtain ⟨k', v'⟩ := kv
    simp only [lookupRow] at h
    by_cases hk : k' = k
    · rw [if_pos hk] at h
      cases h
      subst hk
      exact List.mem_cons_self _ _
    · rw [if_neg hk] at h
      exact List.mem_cons_of_mem _ (ih h)

/-- `bumpEdge` never produces an empty row. -/
theorem bumpEdge_ne_nil (row : List (String × Nat)) (succ : String) :
    bumpEdge row succ ≠ [] := by
  cases row with
  | nil => simp [bumpEdge]
  | cons kv rest =>
    cases kv
    simp only [bumpEdge]
    split <;> simp

/-- `swgAddEdge` preserves non-emptiness of every graph row. -/
theorem swgAddEdge_nonempty {g : List (String × List (String × Nat))}
    (hg : ∀ x ∈ g, x.2 ≠ []) (src succ : String) :
    ∀ x ∈ swgAddEdge g src succ, x.2 ≠ [] := by
  induction g with
  | nil =>
    intro x hx
    simp only [swgAddEdge, List.mem_singleton] at hx
    subst hx
    simp
  | cons kv rest ih =>
    intro x hx
    cases kv with
    | mk k row =>
      simp only [swgAddEdge] at hx
      by_cases hk : k = src
      · rw [if_pos hk] at hx
        rcases List.mem_cons.1 hx with rfl | hx
        · exact bumpEdge_ne_nil row succ
        · exact hg x (List.mem_cons_of_mem _ hx)
      · rw [if_neg hk] at hx
        rcases List.mem_cons.1 hx with rfl | hx
        · exact hg _ (List.mem_cons_self _ _)
        · exact ih (fun y hy => hg y (List.mem_cons_of_mem _ hy)) x hx

/-- Every graph row of a predictor state built by logging a sequence of
reads from the empty state is non-empty (a row is created only together
with its first edge). -/
theorem swgReach_nonempty (ps : List String) :
    ∀ x ∈ (List.foldl swgLog swgInit ps).graph, x.2 ≠ [] := by
  have key : ∀ (ps : List String) (s : SWGState), (∀ x ∈ s.graph, x.2 ≠ []) →
      ∀ x ∈ (List.foldl swgLog s ps).graph, x.2 ≠ [] := by
    intro ps
    induction ps with
    | nil => intro s hs; simpa using hs
    | cons p rest ih =>
      intro s hs
      simp only [List.foldl_cons]
      refine ih (swgLog s p) ?_
      unfold swgLog
      split
      · split
        · exact swgAddEdge_nonempty hs _ _
        · exact hs
      · exact hs
  exact key ps swgInit (by simp [swgInit])

/-- C9: for the successor-graph predictor over any state reachable by
logging a read sequence, `predict` returns none exactly when the context
has no outgoing edges, and otherwise returns the successor of maximal
edge weight with ties broken in favour of the first-inserted successor;
in particular after logging `A, B, A, B, A, C`, `predict(A) = B` and
`predict(C) = none`. -/
theorem c9_swg_predict :
    (∀ (ps : List String) (c : String),
      ((swgPredict (List.foldl swgLog swgInit ps) c).2 = none ↔
        swgSuccessors (List.foldl swgLog swgInit ps) c = []) ∧
      (∀ p, (swgPredict (List.foldl swgLog swgInit ps) c).2 = some p →
        FirstMax (swgSuccessors (List.foldl swgLog swgInit ps) c) p)) ∧
    (swgPredict (List.foldl swgLog swgInit ["A", "B", "A", "B", "A", "C"]) "A").2
      = some "B" ∧
    (swgPredict (List.foldl swgLog swgInit ["A", "B", "A", "B", "A", "C"]) "C").2
      = none := by
  refine ⟨?_, by decide, by decide⟩
  intro ps c
  constructor
  · unfold swgPredict swgSuccessors
    cases hl : lookupRow (List.foldl swgLog swgInit ps).graph c with
    | none => simp
    | some row =>
      have hne : row ≠ [] := swgReach_nonempty ps (c, row) (lookupRow_mem hl)
      cases row with
      | nil => exact absurd rfl hne
      | cons kv rest => simp [pyMaxFirst]
  · intro p hp
    unfold swgPredict at hp
    cases hl : lookupRow (List.foldl swgLog swgInit ps).graph c with
    | none => rw [hl] at hp; cases hp
    | some row =>
      rw [hl] at hp
      have : swgSuccessors (List.foldl swgLog swgInit ps) c = row := by
        unfold swgSuccessors
        rw [hl]
        rfl
      rw [this]
      exact pyMaxFirst_firstMax hp

/-- Witness for C9 at the concrete trace `A, B, A, B, A, C`: the
predicted successor `B` of context `A` is the first-inserted maximal
edge. -/
theorem c9_swg_predict_witness :
    FirstMax (swgSuccessors (List.foldl swgLog swgInit ["A", "B", "A", "B", "A", "C"]) "A")
      "B" :=
  (c9_swg_predict.1 ["A", "B", "A", "B", "A", "C"] "A").2 "B" (by decide)

/-! ### The adaptive weighted-recency update -/

/-- `mBumpBy` adds its amount to exactly the bumped key. -/
theorem rowRead_mBumpBy (row : List (String × ℚ)) (c q : String) (amt : ℚ) :
    rowRead (mBumpBy row c amt) q = rowRead row q + (if q = c then amt else 0) := by
  induction row with
  | nil =>
    by_cases hq : q = c
    · subst hq
      simp [mBumpBy, rowRead, lookupRow]
    · simp [mBumpBy, rowRead, lookupRow, hq, Ne.symm hq]
  | cons kv rest ih =>
    obtain ⟨k, w⟩ := kv
    by_cases hk : k = c
    · subst hk
      by_cases hq : q = k
      · subst hq
        simp [mBumpBy, rowRead, lookupRow]
      · simp [mBumpBy, rowRead, lookupRow, hq, Ne.symm hq]
    · by_cases hq : k = q
      · subst hq
        simp [mBumpBy, rowRead, lookupRow, hk]
      · simp only [mBumpBy, if_neg hk]
        simp only [rowRead, lookupRow, if_neg hq]
        exact ih

/-- `adaptiveBump` adds its amount to exactly the bumped transition. -/
theorem transVal_adaptiveBump (t : List (String × List (String × ℚ)))
    (prev c p q : String) (amt : ℚ) :
    transVal (adaptiveBump t prev c amt) p q =
      transVal t p q + (if p = prev ∧ q = c then amt else 0) := by
  induction t with
  | nil =>
    by_cases hp : p = prev
    · subst hp
      by_cases hq : q = c
      · subst hq
        simp [adaptiveBump, transVal, lookupRow, rowRead]
      · simp [adaptiveBump, transVal, lookupRow, rowRead, hq, Ne.symm hq]
    · simp [adaptiveBump, transVal, lookupRow, hp, Ne.symm hp]
  | cons kv rest ih =>
    obtain ⟨k, row⟩ := kv
    by_cases hk : k = prev
    · subst hk
      by_cases hp : k = p
      · subst hp
        have hrw := rowRead_mBumpBy row c q amt
        simp only [adaptiveBump, if_pos rfl, transVal, lookupRow, if_pos rfl]
        simpa [rowRead] using hrw
      · have hcond : ¬(p = k ∧ q = c) := fun h => hp h.1.symm
        simp only [adaptiveBump, if_pos rfl, transVal, lookupRow, if_neg hp,
          if_neg hcond, add_zero]
    · by_cases hp : k = p
      · subst hp
        have hcond : ¬(k = prev ∧ q = c) := fun h => hk h.1
        simp only [adaptiveBump, if_neg hk, transVal, lookupRow, if_pos rfl,
          if_true, eq_self_iff_true, if_neg hcond, add_zero]
      · simp only [adaptiveBump, if_neg hk, transVal, lookupRow, if_neg hp]
        exact ih

/-- The recency-weighted fold of `AdaptiveMarkov_Opt.log_read` adds, for
each window index whose entry is `p` (and differs from the current
file), the corresponding learning-rate-scaled decay power to the
transition `p → current`. -/
theorem transVal_adaptive_fold (l : List (Nat × String))
    (t : List (String × List (String × ℚ))) (c p q : String) (η δ : ℚ) (W : Nat) :
    transVal (l.foldl (fun t iz =>
        if iz.2 ≠ c then adaptiveBump t iz.2 c (η * δ ^ (W - 1 - iz.1)) else t) t) p q =
      transVal t p q +
        (l.map fun iz => if iz.2 = p ∧ p ≠ c ∧ q = c
          then η * δ ^ (W - 1 - iz.1) else 0).sum := by
  induction l generalizing t with
  | nil => simp
  | cons iz l ih =>
    simp only [List.foldl_cons, List.map_cons, List.sum_cons]
    by_cases hz : iz.2 = c
    · have hstep : (if iz.2 ≠ c then adaptiveBump t iz.2 c (η * δ ^ (W - 1 - iz.1)) else t)
          = t := by simp [hz]
      have hcond : ¬(iz.2 = p ∧ p ≠ c ∧ q = c) := by
        rintro ⟨h1, h2, _⟩
        exact h2 (h1 ▸ hz)
      rw [hstep, ih, if_neg hcond, zero_add]
    · have hstep : (if iz.2 ≠ c then adaptiveBump t iz.2 c (η * δ ^ (W - 1 - iz.1)) else t)
          = adaptiveBump t iz.2 c (η * δ ^ (W - 1 - iz.1)) := by simp [hz]
      rw [hstep, ih, transVal_adaptiveBump]
      have hite : (if p = iz.2 ∧ q = c then η * δ ^ (W - 1 - iz.1) else 0)
          = (if iz.2 = p ∧ p ≠ c ∧ q = c then η * δ ^ (W - 1 - iz.1) else 0) := by
        by_cases hp : iz.2 = p
        · have hz' : ¬(p = c) := fun hh => hz (hp.trans hh)
          by_cases hq : q = c <;> simp [hp, hq, hz']
        · have hp' : ¬(p = iz.2) := fun hh => hp hh.symm
          simp [hp, hp']
      rw [hite]
      ring

/-- C10: the adaptive weighted-recency update: logging `current` adds,
for each index `i` of the last-H window of the prior history holding a
path `prev ≠ current`, the amount `η · δ^(W−1−i)` to
`table[prev][current]`, and touches nothing else; in particular with
`H = 3, η = 0.1, δ = 0.9`, logging `a, b, c, d` sets
`table[a][d] = 0.1·0.81`, `table[b][d] = 0.1·0.9` and
`table[c][d] = 0.1`. -/
theorem c10_adaptive_update :
    (∀ (s : AdaptiveState) (c p q : String),
      transVal (adaptiveLog s c).transitions p q =
        transVal s.transitions p q +
          ((takeLastN s.history s.historyLength).enum.map
            (fun iz => if iz.2 = p ∧ p ≠ c ∧ q = c
              then s.learningRate * s.decay ^
                ((takeLastN s.history s.historyLength).length - 1 - iz.1)
              else 0)).sum) ∧
    transVal (List.foldl adaptiveLog (mkAdaptive 3 (1/10) (9/10))
      ["a", "b", "c", "d"]).transitions "a" "d" = 1/10 * (81/100) ∧
    transVal (List.foldl adaptiveLog (mkAdaptive 3 (1/10) (9/10))
      ["a", "b", "c", "d"]).transitions "b" "d" = 1/10 * (9/10) ∧
    transVal (List.foldl adaptiveLog (mkAdaptive 3 (1/10) (9/10))
      ["a", "b", "c", "d"]).transitions "c" "d" = 1/10 := by
  refine ⟨?_, ?_, ?_, ?_⟩
  · intro s c p q
    exact transVal_adaptive_fold _ _ _ _ _ _ _ _
  all_goals
    simp [adaptiveLog, adaptiveBump, mBumpBy, takeLastN, transVal, lookupRow, mkAdaptive,
      List.enum, List.enumFrom]
    norm_num

/-! ### The decayed Markov update -/

/-- Decaying a row rescales every key except the logged successor. -/
theorem lookupRow_mDecayOthers (row : List (String × ℚ)) (c d : String) (δ : ℚ) :
    lookupRow (mDecayOthers row c δ) d =
      (lookupRow row d).map (fun v => if d = c then v else v * δ) := by
  induction row with
  | nil => simp [mDecayOthers, lookupRow]
  | cons kv rest ih =>
    obtain ⟨k, v⟩ := kv
    simp only [mDecayOthers, lookupRow]
    by_cases hd : k = d
    · subst hd
      simp [lookupRow]
    · simp [lookupRow, hd, ih]

/-- Decaying a row, read pointwise with default zero. -/
theorem rowRead_mDecayOthers (row : List (String × ℚ)) (c d : String) (δ : ℚ) :
    rowRead (mDecayOthers row c δ) d =
      if d = c then rowRead row d else rowRead row d * δ := by
  rw [rowRead, lookupRow_mDecayOthers]
  by_cases hd : d = c
  · subst hd
    cases h : lookupRow row d <;> simp [rowRead, h]
  · cases h : lookupRow row d <;> simp [rowRead, h, hd]

/-- `Counter[c] += 1`, read pointwise with default zero. -/
theorem rowRead_mBump (row : List (String × ℚ)) (c d : String) :
    rowRead (mBump row c) d = if d = c then rowRead row d + 1 else rowRead row d := by
  induction row with
  | nil =>
    by_cases hd : d = c
    · subst hd
      simp [mBump, rowRead, lookupRow]
    · simp [mBump, rowRead, lookupRow, hd, Ne.symm hd]
  | cons kv rest ih =>
    obtain ⟨k, v⟩ := kv
    by_cases hk : k = c
    · subst hk
      by_cases hd : d = k
      · subst hd
        simp [mBump, rowRead, lookupRow]
      · simp [mBump, rowRead, lookupRow, hd, Ne.symm hd]
    · by_cases hd : k = d
      · subst hd
        simp [mBump, rowRead, lookupRow, hk]
      · simp only [mBump, if_neg hk]
        simp only [rowRead, lookupRow, if_neg hd]
        exact ih

/-- One Markov table update on a row: increment the logged successor by
one, multiply every other successor by the decay. -/
theorem rowRead_markovStep (row : List (String × ℚ)) (c d : String) (δ : ℚ) :
    rowRead (mDecayOthers (mBump row c) c δ) d =
      if d = c then rowRead row d + 1 else rowRead row d * δ := by
  rw [rowRead_mDecayOthers]
  by_cases hd : d = c <;> simp [hd, rowRead_mBump]

/-- `mUpdateCtx` rewrites exactly the addressed context row. -/
theorem lookupRow_mUpdateCtx (t : List (List String × List (String × ℚ)))
    (ctx ctx' : List String) (f : List (String × ℚ) → List (String × ℚ)) :
    lookupRow (mUpdateCtx t ctx f) ctx' =
      if ctx' = ctx then some (f ((lookupRow t ctx).getD [])) else lookupRow t ctx' := by
  induction t with
  | nil =>
    by_cases h : ctx' = ctx
    · subst h
      simp [mUpdateCtx, lookupRow]
    · simp [mUpdateCtx, lookupRow, h, Ne.symm h]
  | cons kv rest ih =>
    obtain ⟨k, row⟩ := kv
    simp only [mUpdateCtx]
    by_cases hk : k = ctx
    · subst hk
      simp only [if_pos rfl, lookupRow]
      by_cases h' : k = ctx'
      · subst h'
        simp [lookupRow]
      · simp [lookupRow, h', Ne.symm h']
    · simp only [if_neg hk, lookupRow]
      by_cases h' : k = ctx'
      · subst h'
        simp [hk, lookupRow]
      · simp [lookupRow, h', ih]

/-- `rowValM` through the default row. -/
theorem rowValM_eq (t : List (List String × List (String × ℚ))) (ctx : List String)
    (d : String) : rowValM t ctx d = rowRead ((lookupRow t ctx).getD []) d := by
  cases h : lookupRow t ctx <;> simp [rowValM, rowRead, lookupRow, h]

/-- `mUpdateCtx`, read pointwise: only the addressed row changes. -/
theorem rowValM_mUpdateCtx (t : List (List String × List (String × ℚ)))
    (ctx ctx' : List String) (f : List (String × ℚ) → List (String × ℚ)) (d : String) :
    rowValM (mUpdateCtx t ctx f) ctx' d =
      if ctx' = ctx then rowRead (f ((lookupRow t ctx).getD [])) d
      else rowValM t ctx' d := by
  rw [rowValM_eq, lookupRow_mUpdateCtx]
  by_cases h : ctx' = ctx
  · simp [h]
  · simp [h, rowValM_eq]

/-- The context drawn by `_get_context` has exactly the requested length
when the history is long enough. -/
theorem getContext_length {h : List String} {n : Nat} (h1 : 1 ≤ n) (h2 : n ≤ h.length) :
    (getContext h n).length = n := by
  simp only [getContext]
  rw [Nat.min_eq_left h2, if_neg (by omega : ¬(n = 0)), List.length_drop]
  omega

/-- A fold of Markov updates over context lengths foreign to `ctx`
leaves the row of `ctx` unchanged. -/
theorem rowValM_fold_untouched (hist : List String) (c : String) (δ : ℚ)
    (l : List Nat) (t : List (List String × List (String × ℚ)))
    (ctx : List String) (d : String)
    (hne : ∀ m ∈ l, ctx ≠ getContext hist m) :
    rowValM (l.foldl (fun t n => mUpdateCtx t (getContext hist n)
        (fun row => mDecayOthers (mBump row c) c δ)) t) ctx d = rowValM t ctx d := by
  induction l generalizing t with
  | nil => rfl
  | cons n l ih =>
    simp only [List.foldl_cons]
    rw [ih _ (fun m hm => hne m (List.mem_cons_of_mem _ hm))]
    rw [rowValM_mUpdateCtx, if_neg (hne n (List.mem_cons_self _ _))]

/-- The update loop of `Markov_Opt.log_read`, read pointwise: a context
keyed by some length in the loop gets its logged successor incremented
and the others decayed; every other row is untouched. -/
theorem rowValM_markov_fold (hist : List String) (c : String) (δ : ℚ)
    (l : List Nat) (t : List (List String × List (String × ℚ)))
    (ctx : List String) (d : String)
    (hmem : ∀ n ∈ l, 1 ≤ n ∧ n ≤ hist.length) (hnd : l.Nodup) :
    rowValM (l.foldl (fun t n => mUpdateCtx t (getContext hist n)
        (fun row => mDecayOthers (mBump row c) c δ)) t) ctx d =
      if ∃ n ∈ l, ctx = getContext hist n
      then (if d = c then rowValM t ctx d + 1 else rowValM t ctx d * δ)
      else rowValM t ctx d := by
  induction l generalizing t with
  | nil => simp
  | cons n l ih =>
    obtain ⟨hn1, hn2⟩ := hmem n (List.mem_cons_self _ _)
    have hlen : (getContext hist n).length = n := getContext_length hn1 hn2
    simp only [List.foldl_cons]
    by_cases hctx : ctx = getContext hist n
    · have hrest : ∀ m ∈ l, ctx ≠ getContext hist m := by
        intro m hm hcm
        obtain ⟨hm1, hm2⟩ := hmem m (List.mem_cons_of_mem _ hm)
        have hlm : (getContext hist m).length = m := getContext_length hm1 hm2
        have hnm : n = m := by
          have e1 : ctx.length = n := by rw [hctx, hlen]
          have e2 : ctx.length = m := by rw [hcm, hlm]
          omega
        subst hnm
        exact (List.nodup_cons.1 hnd).1 hm
      rw [rowValM_fold_untouched hist c δ l _ ctx d hrest]
      have hcond : ∃ m ∈ n :: l, ctx = getContext hist m :=
        ⟨n, List.mem_cons_self _ _, hctx⟩
      rw [rowValM_mUpdateCtx]
      simp only [if_pos hctx, if_pos hcond]
      rw [rowRead_markovStep, hctx, rowValM_eq]
    · have hbase : rowValM (mUpdateCtx t (getContext hist n)
          (fun row => mDecayOthers (mBump row c) c δ)) ctx d = rowValM t ctx d := by
        rw [rowValM_mUpdateCtx, if_neg hctx]
      rw [ih _ (fun m hm => hmem m (List.mem_cons_of_mem _ hm))
        (List.nodup_cons.1 hnd).2, hbase]
      have hiff : (∃ m ∈ l, ctx = getContext hist m) ↔
          (∃ m ∈ n :: l, ctx = getContext hist m) := by
        constructor
        · rintro ⟨m, hm, hcm⟩
          exact ⟨m, List.mem_cons_of_mem _ hm, hcm⟩
        · rintro ⟨m, hm, hcm⟩
          rcases List.mem_cons.1 hm with rfl | hm
          · exact absurd hcm hctx
          · exact ⟨m, hm, hcm⟩
      exact if_congr hiff rfl rfl

/-- C7 counterexample: with order 3, logging `a` then `b` increments the
row keyed by the one-entry context `("a")`; the empty tuple never keys a
row (the claim would have `table[()]["b"] = 1`). -/
theorem c7_counterexample :
    lookupRow (markovLog (markovLog markovInit "a") "b").transitions
      ([] : List String) = none ∧
    rowValM (markovLog (markovLog markovInit "a") "b").transitions [] "b" = 0 ∧
    rowValM (markovLog (markovLog markovInit "a") "b").transitions ["a"] "b" = 1 := by
  refine ⟨by decide, ?_, ?_⟩ <;>
    simp [markovLog, markovInit, mUpdateCtx, mBump, mDecayOthers, getContext,
      rowValM, lookupRow, List.range']

/-- C7 amended: for each `n = 1 .. min(N, len(history))`, `log(current)`
updates the table row keyed by the last `n` history entries preceding
`current` (never the empty tuple): the count of `current` in that row is
incremented by 1 and every other successor is multiplied by δ; all other
rows are unchanged, and the history gains `current`. -/
theorem c7_markov_update :
    (∀ (s : MarkovState) (c : String) (ctx : List String) (d : String),
      rowValM (markovLog s c).transitions ctx d =
        if 1 ≤ ctx.length ∧ ctx.length ≤ min s.order s.history.length ∧
            ctx = getContext s.history ctx.length
        then (if d = c then rowValM s.transitions ctx d + 1
              else rowValM s.transitions ctx d * s.decay)
        else rowValM s.transitions ctx d) ∧
    (∀ (s : MarkovState) (c : String), (markovLog s c).history = s.history ++ [c]) := by
  refine ⟨?_, fun s c => rfl⟩
  intro s c ctx d
  have hfold := rowValM_markov_fold s.history c s.decay
    (List.range' 1 (min s.order s.history.length)) s.transitions ctx d
    (fun n hn => by
      have := List.mem_range'_1.1 hn
      constructor
      · omega
      · have : n ≤ min s.order s.history.length := by omega
        omega)
    (List.nodup_range' 1 (min s.order s.history.length))
  have hdef : (markovLog s c).transitions =
      (List.range' 1 (min s.order s.history.length)).foldl
        (fun t n => mUpdateCtx t (getContext s.history n)
          (fun row => mDecayOthers (mBump row c) c s.decay)) s.transitions := rfl
  rw [hdef, hfold]
  have hiff : (∃ n ∈ List.range' 1 (min s.order s.history.length),
      ctx = getContext s.history n) ↔
      (1 ≤ ctx.length ∧ ctx.length ≤ min s.order s.history.length ∧
        ctx = getContext s.history ctx.length) := by
    constructor
    · rintro ⟨n, hn, hctx⟩
      have hn' := List.mem_range'_1.1 hn
      have hn2 : n ≤ min s.order s.history.length := by omega
      have hnh : n ≤ s.history.length := by omega
      have hlen : ctx.length = n := by rw [hctx, getContext_length (by omega) hnh]
      refine ⟨by omega, by omega, ?_⟩
      rw [hlen]
      exact hctx
    · rintro ⟨h1, h2, h3⟩
      exact ⟨ctx.length, List.mem_range'_1.2 ⟨h1, by omega⟩, h3⟩
  exact if_congr hiff rfl rfl

/-! ### Error propagation through the read handler -/

/-- C2 counterexample: with optimizations enabled, a read of `/x` under
the adaptive predictor (trained so that it predicts `/ghost`, which does
not exist in the backing directory) raises out of the read handler: the
`os.path.getsize` call inside `request_file` fails and no handler in
`read` catches it, so the backing bytes `[7]` are lost and the caller
sees the error. -/
theorem c2_counterexample :
    quarkRead (⟨fun p => if p = "/x" then some [7] else none, 100, 1⟩ : Env) adaptiveP
      ⟨adaptiveLog (adaptiveLog (mkAdaptive 5 (1/10) (9/10)) "/x") "/ghost",
        initCState, true⟩ "/x" 1 0 [7]
      = .error "FileNotFoundError" := by
  simp [quarkRead, readCacheCall, lookupEntry, initCState, logPredict, adaptiveP,
    adaptivePredict, adaptiveScores, adaptiveLog, adaptiveBump, mBumpBy, takeLastN,
    mkAdaptive, lastFileRead, lookupRow, pySortDesc, requestAll, requestFile,
    touchRecency, moveToEnd, removeKey, List.enum, List.enumFrom,
    List.mergeSort_singleton]

/-- C2 amended: the read handler wraps `log_predict` in no exception
handler, so its outcome decides the read's outcome: when the
log-and-predict step fails, the failure propagates to the caller and the
bytes are lost; the read returns its bytes (cached slice on a non-empty
hit, backing slice otherwise) exactly when the step succeeds. -/
theorem c2_read_propagation {σ : Type} (env : Env) (P : Predictor σ) (s : FSState σ)
    (path : String) (size offset : Nat) (fh : List Nat) :
    (∀ e, logPredict env P
        { s with cacheSt := (readCacheCall s.cacheSt path size offset).1 } path
          = .error e →
      quarkRead env P s path size offset fh = .error e) ∧
    (∀ s', logPredict env P
        { s with cacheSt := (readCacheCall s.cacheSt path size offset).1 } path
          = .ok s' →
      quarkRead env P s path size offset fh
        = .ok (s', readServed s.cacheSt path size offset fh)) := by
  constructor
  · intro e hx
    simp only [quarkRead]
    cases (readCacheCall s.cacheSt path size offset).2 with
    | none => simp [hx]
    | some bs => by_cases hb : bs.isEmpty <;> simp [hb, hx]
  · intro s' hx
    simp only [quarkRead, readServed, readCacheVal]
    cases (readCacheCall s.cacheSt path size offset).2 with
    | none => simp [hx]
    | some bs => by_cases hb : bs.isEmpty <;> simp [hb, hx]

/-- Witness for C2's amended theorem: with optimizations disabled the
log-and-predict step succeeds and the read returns the backing bytes. -/
theorem c2_read_propagation_witness :
    quarkRead (⟨fun p => if p = "/x" then some [7] else none, 100, 1⟩ : Env) adaptiveP
      ⟨mkAdaptive 5 (1/10) (9/10), initCState, false⟩ "/x" 1 0 [7]
      = .ok (⟨adaptiveLog (mkAdaptive 5 (1/10) (9/10)) "/x", initCState, false⟩,
          readServed initCState "/x" 1 0 [7]) :=
  (c2_read_propagation (⟨fun p => if p = "/x" then some [7] else none, 100, 1⟩ : Env)
    adaptiveP ⟨mkAdaptive 5 (1/10) (9/10), initCState, false⟩ "/x" 1 0 [7]).2
    ⟨adaptiveLog (mkAdaptive 5 (1/10) (9/10)) "/x", initCState, false⟩ (by rfl)

/-! ### Cache accounting invariants -/

/-- Sizes sum over concatenation. -/
theorem sumSizes_append (a b : List (String × CEntry)) :
    sumSizes (a ++ b) = sumSizes a + sumSizes b := by
  simp [sumSizes]

/-- A lookup misses exactly the absent keys. -/
theorem lookupEntry_none_iff (c : List (String × CEntry)) (p : String) :
    lookupEntry c p = none ↔ p ∉ cacheKeys c := by
  induction c with
  | nil => simp [lookupEntry, cacheKeys]
  | cons kv rest ih =>
    obtain ⟨k, e⟩ := kv
    by_cases hk : k = p
    · subst hk
      simp [lookupEntry, cacheKeys]
    · simp only [lookupEntry, if_neg hk, cacheKeys, List.map_cons, List.mem_cons]
      rw [ih]
      simp only [cacheKeys]
      constructor
      · intro h
        rintro (rfl | hm)
        · exact hk rfl
        · exact h hm
      · intro h hm
        exact h (Or.inr hm)

/-- Removing an absent key changes nothing. -/
theorem removeKey_of_not_mem {c : List (String × CEntry)} {p : String}
    (h : p ∉ cacheKeys c) : removeKey c p = c := by
  induction c with
  | nil => rfl
  | cons kv rest ih =>
    obtain ⟨k, e⟩ := kv
    simp only [cacheKeys, List.map_cons, List.mem_cons] at h
    push_neg at h
    rw [removeKey, if_neg (fun hh => h.1 hh.symm), ih h.2]

/-- The removed key is gone. -/
theorem not_mem_keys_removeKey (c : List (String × CEntry)) (p : String) :
    p ∉ cacheKeys (removeKey c p) := by
  induction c with
  | nil => simp [removeKey, cacheKeys]
  | cons kv rest ih =>
    obtain ⟨k, e⟩ := kv
    by_cases hk : k = p
    · rw [removeKey, if_pos hk]
      exact ih
    · rw [removeKey, if_neg hk]
      simp only [cacheKeys, List.map_cons, List.mem_cons]
      rintro (rfl | hm)
      · exact hk rfl
      · exact ih hm

/-- Removal yields a sublist. -/
theorem removeKey_sublist (c : List (String × CEntry)) (p : String) :
    List.Sublist (removeKey c p) c := by
  induction c with
  | nil => simp [removeKey]
  | cons kv rest ih =>
    obtain ⟨k, e⟩ := kv
    by_cases hk : k = p
    · rw [removeKey, if_pos hk]
      exact ih.cons _
    · rw [removeKey, if_neg hk]
      exact ih.cons₂ _

/-- Removing a resident key removes exactly its size from the sum. -/
theorem sumSizes_removeKey {c : List (String × CEntry)} {p : String} {e : CEntry}
    (hnd : (cacheKeys c).Nodup) (hl : lookupEntry c p = some e) :
    sumSizes (removeKey c p) + e.size = sumSizes c := by
  induction c with
  | nil => simp [lookupEntry] at hl
  | cons kv rest ih =>
    obtain ⟨k, e'⟩ := kv
    simp only [cacheKeys, List.map_cons, List.nodup_cons] at hnd
    by_cases hk : k = p
    · subst hk
      rw [lookupEntry, if_pos rfl] at hl
      cases hl
      rw [removeKey, if_pos rfl, removeKey_of_not_mem hnd.1]
      simp [sumSizes]
      omega
    · rw [lookupEntry, if_neg hk] at hl
      rw [removeKey, if_neg hk]
      have := ih hnd.2 hl
      simp only [sumSizes, List.map_cons, List.sum_cons] at this ⊢
      omega

/-- Removal preserves distinctness of keys. -/
theorem keys_removeKey_nodup {c : List (String × CEntry)} {p : String}
    (hnd : (cacheKeys c).Nodup) : (cacheKeys (removeKey c p)).Nodup := by
  have hsub : List.Sublist (cacheKeys (removeKey c p)) (cacheKeys c) :=
    (removeKey_sublist c p).map Prod.fst
  exact hnd.sublist hsub

/-- A recency touch never changes the byte total. -/
theorem sumSizes_moveToEnd {c : List (String × CEntry)} {p : String}
    (hnd : (cacheKeys c).Nodup) : sumSizes (moveToEnd c p) = sumSizes c := by
  rw [moveToEnd]
  cases hl : lookupEntry c p with
  | none => rfl
  | some e =>
    rw [sumSizes_append]
    have h1 := sumSizes_removeKey hnd hl
    have h2 : sumSizes [(p, e)] = e.size := by simp [sumSizes]
    omega

/-- A recency touch keeps keys distinct. -/
theorem keys_moveToEnd_nodup {c : List (String × CEntry)} {p : String}
    (hnd : (cacheKeys c).Nodup) : (cacheKeys (moveToEnd c p)).Nodup := by
  rw [moveToEnd]
  cases hl : lookupEntry c p with
  | none => exact hnd
  | some e =>
    simp only [cacheKeys, List.map_append, List.map_cons, List.map_nil]
    rw [List.nodup_append]
    refine ⟨keys_removeKey_nodup hnd, List.nodup_singleton _, ?_⟩
    intro a ha hb
    simp only [List.mem_singleton] at hb
    rw [hb] at ha
    exact not_mem_keys_removeKey c p ha

/-- The eviction loop preserves the running-total accounting and drives
the total at or below the budget. -/
theorem evictLoop_spec (limit : Nat) (c : List (String × CEntry)) (t : Nat)
    (ht : t = sumSizes c) :
    (evictLoop limit c t).2 = sumSizes (evictLoop limit c t).1 ∧
    (evictLoop limit c t).2 ≤ limit := by
  induction c generalizing t with
  | nil =>
    simp [sumSizes] at ht
    simp [evictLoop, ht, sumSizes]
  | cons kv rest ih =>
    obtain ⟨k, e⟩ := kv
    rw [evictLoop]
    by_cases hle : t ≤ limit
    · rw [if_pos hle]
      exact ⟨ht, hle⟩
    · rw [if_neg hle]
      refine ih _ ?_
      simp only [sumSizes, List.map_cons, List.sum_cons] at ht
      simp only [sumSizes]
      omega

/-- Eviction pops from the old end only, leaving a suffix. -/
theorem evictLoop_suffix (limit : Nat) (c : List (String × CEntry)) (t : Nat) :
    List.IsSuffix (evictLoop limit c t).1 c := by
  induction c generalizing t with
  | nil => simp [evictLoop]
  | cons kv rest ih =>
    obtain ⟨k, e⟩ := kv
    rw [evictLoop]
    by_cases hle : t ≤ limit
    · rw [if_pos hle]
    · rw [if_neg hle]
      exact (ih _).trans (List.suffix_cons _ _)

/-- Appending a fresh entry at the young end and running the eviction
loop keeps keys distinct, keeps the total equal to the resident sizes,
and drives the total at or below the budget. -/
theorem insertEvict_inv (limit : Nat) (c : List (String × CEntry))
    (x : String × CEntry) (u : Nat)
    (h1 : (cacheKeys c).Nodup) (hu : u = sumSizes c + x.2.size)
    (hx : x.1 ∉ cacheKeys c) :
    (cacheKeys (evictLoop limit (c ++ [x]) u).1).Nodup ∧
    (evictLoop limit (c ++ [x]) u).2 = sumSizes (evictLoop limit (c ++ [x]) u).1 ∧
    (evictLoop limit (c ++ [x]) u).2 ≤ limit := by
  have hsum : u = sumSizes (c ++ [x]) := by
    rw [sumSizes_append]
    have : sumSizes [x] = x.2.size := by simp [sumSizes]
    omega
  have hspec := evictLoop_spec limit (c ++ [x]) u hsum
  have hsuf := evictLoop_suffix limit (c ++ [x]) u
  have hnodup : (cacheKeys (c ++ [x])).Nodup := by
    simp only [cacheKeys, List.map_append, List.map_cons, List.map_nil]
    rw [List.nodup_append]
    refine ⟨h1, List.nodup_singleton _, ?_⟩
    intro a ha hb
    simp only [List.mem_singleton] at hb
    rw [hb] at ha
    exact hx ha
  exact ⟨hnodup.sublist (hsuf.sublist.map Prod.fst), hspec.1, hspec.2⟩

/-- The cache accounting invariant of `FileCacheManager`: in every
reachable state the keys are distinct, `current_cache_size` equals the
sum of the resident entry sizes, and it never exceeds the memory
budget. -/
theorem reach_cache_inv {env : Env} {s : CState} (h : Reach env s) :
    (cacheKeys s.cache).Nodup ∧ s.total = sumSizes s.cache ∧
      s.total ≤ env.memoryLimit := by
  induction h with
  | init => simp [initCState, cacheKeys, sumSizes]
  | @request t s' fp hr hreq ih =>
    obtain ⟨h1, h2, h3⟩ := ih
    unfold requestFile at hreq
    cases hfs : env.fs fp with
    | none =>
      simp only [hfs] at hreq
      cases hreq
    | some bs =>
      simp only [hfs] at hreq
      by_cases hbig : bs.length > env.memoryLimit
      · rw [if_pos hbig] at hreq
        cases hreq
        exact ⟨h1, h2, h3⟩
      · rw [if_neg hbig] at hreq
        by_cases hin : (lookupEntry t.cache fp).isSome
        · simp only [hin, if_true] at hreq
          cases hreq
          exact ⟨keys_moveToEnd_nodup h1, h2.trans (sumSizes_moveToEnd h1).symm, h3⟩
        · simp only [hin, if_false] at hreq
          cases hreq
          exact ⟨h1, h2, h3⟩
  | @fetchStart t hr ih =>
    obtain ⟨h1, h2, h3⟩ := ih
    unfold beginFetch
    cases hld : t.loading with
    | some _ => exact ⟨h1, h2, h3⟩
    | none =>
      cases hq : t.queue with
      | nil => exact ⟨h1, h2, h3⟩
      | cons fp rest =>
        show (cacheKeys (beginFetchItem env t fp rest).cache).Nodup ∧
          (beginFetchItem env t fp rest).total
            = sumSizes (beginFetchItem env t fp rest).cache ∧
          (beginFetchItem env t fp rest).total ≤ env.memoryLimit
        unfold beginFetchItem
        cases hfs : env.fs fp with
        | none => exact ⟨h1, h2, h3⟩
        | some bs =>
          cases hlk : lookupEntry t.cache fp with
          | some e =>
            show (cacheKeys (beginFetchHit t fp rest bs e).cache).Nodup ∧
              (beginFetchHit t fp rest bs e).total
                = sumSizes (beginFetchHit t fp rest bs e).cache ∧
              (beginFetchHit t fp rest bs e).total ≤ env.memoryLimit
            unfold beginFetchHit
            by_cases hsz : e.size = bs.length
            · rw [if_pos hsz]
              exact ⟨keys_moveToEnd_nodup h1, h2.trans (sumSizes_moveToEnd h1).symm, h3⟩
            · rw [if_neg hsz]
              exact ⟨h1, h2, h3⟩
          | none => exact ⟨h1, h2, h3⟩
  | @fetchChunk t hr ih =>
    obtain ⟨h1, h2, h3⟩ := ih
    unfold chunkStep
    cases hld : t.loading with
    | none => exact ⟨h1, h2, h3⟩
    | some trip =>
      obtain ⟨fp, off, ins⟩ := trip
      show (cacheKeys (chunkStepTriple env t fp off ins).cache).Nodup ∧
        (chunkStepTriple env t fp off ins).total
          = sumSizes (chunkStepTriple env t fp off ins).cache ∧
        (chunkStepTriple env t fp off ins).total ≤ env.memoryLimit
      unfold chunkStepTriple
      cases hfs : env.fs fp with
      | none => exact ⟨h1, h2, h3⟩
      | some bs =>
        show (cacheKeys (chunkStepLoad env t fp off ins bs).cache).Nodup ∧
          (chunkStepLoad env t fp off ins bs).total
            = sumSizes (chunkStepLoad env t fp off ins bs).cache ∧
          (chunkStepLoad env t fp off ins bs).total ≤ env.memoryLimit
        unfold chunkStepLoad
        by_cases hemp : ((bs.drop off).take env.chunkSize).isEmpty = true
        · rw [if_pos hemp]
          exact ⟨h1, h2, h3⟩
        · rw [if_neg hemp]
          cases hlk : lookupEntry t.cache fp with
          | none =>
            exact insertEvict_inv _ _ _ _ h1 (by rw [h2])
              ((lookupEntry_none_iff _ _).1 hlk)
          | some e =>
            have hrk := sumSizes_removeKey h1 hlk
            exact insertEvict_inv _ _ _ _ (keys_removeKey_nodup h1) (by simp; omega)
              (not_mem_keys_removeKey _ _)
  | @touch t p hr ih =>
    obtain ⟨h1, h2, h3⟩ := ih
    exact ⟨keys_moveToEnd_nodup h1, h2.trans (sumSizes_moveToEnd h1).symm, h3⟩

/-- C4: in every cache state reachable by any sequence of `request_file`
calls, fetch-worker iterations and lookups, the running byte total
equals the sum of the sizes of the resident entries and never exceeds
the configured memory budget. -/
theorem c4_budget_invariant (env : Env) (s : CState) (h : Reach env s) :
    s.total = sumSizes s.cache ∧ s.total ≤ env.memoryLimit :=
  ⟨(reach_cache_inv h).2.1, (reach_cache_inv h).2.2⟩

/-- Witness for C4 at a concrete reachable state: request the three-byte
file `f`, start the fetch, and load the first two-byte chunk. -/
theorem c4_budget_invariant_witness :
    (chunkStep env3 (beginFetch env3 ⟨[], 0, ["f"], none⟩)).total
      = sumSizes (chunkStep env3 (beginFetch env3 ⟨[], 0, ["f"], none⟩)).cache ∧
    (chunkStep env3 (beginFetch env3 ⟨[], 0, ["f"], none⟩)).total ≤ env3.memoryLimit :=
  c4_budget_invariant env3 _
    (Reach.fetchChunk (Reach.fetchStart
      (@Reach.request env3 initCState ⟨[], 0, ["f"], none⟩ "f" Reach.init (by rfl))))

/-! ### Whole-file loads -/

/-- Lookup of a key sitting at the young end behind foreign keys. -/
theorem lookupEntry_append_not_mem {front : List (String × CEntry)} {fp : String}
    {e : CEntry} (h : fp ∉ cacheKeys front) :
    lookupEntry (front ++ [(fp, e)]) fp = some e := by
  induction front with
  | nil => simp [lookupEntry]
  | cons kv rest ih =>
    obtain ⟨k, e'⟩ := kv
    simp only [cacheKeys, List.map_cons, List.mem_cons] at h
    push_neg at h
    rw [List.cons_append, lookupEntry, if_neg (fun hh => h.1 hh.symm)]
    exact ih (by simpa [cacheKeys] using h.2)

/-- Removal distributes over concatenation. -/
theorem removeKey_append (a b : List (String × CEntry)) (p : String) :
    removeKey (a ++ b) p = removeKey a p ++ removeKey b p := by
  induction a with
  | nil => rfl
  | cons kv rest ih =>
    obtain ⟨k, e⟩ := kv
    by_cases hk : k = p
    · rw [List.cons_append, removeKey, if_pos hk, removeKey, if_pos hk, ih]
    · rw [List.cons_append, removeKey, if_neg hk, removeKey, if_neg hk, ih,
        List.cons_append]

/-- A chunk step is a no-op once no load is in progress. -/
theorem chunkStep_of_load_none {env : Env} {s : CState} (h : s.loading = none) :
    chunkStep env s = s := by
  unfold chunkStep
  rw [h]

/-- Iterating chunk steps is a no-op once no load is in progress. -/
theorem runChunks_of_load_none {env : Env} {s : CState} (h : s.loading = none)
    (n : Nat) : runChunks env s n = s := by
  induction n with
  | zero => rfl
  | succ m ih =>
    rw [runChunks, chunkStep_of_load_none h]
    exact ih

/-- Eviction of a cache ending in an affordable young entry keeps that
entry and pops only older ones. -/
theorem evictLoop_last {limit : Nat} {front : List (String × CEntry)}
    {x : String × CEntry} {u : Nat} (hu : u = sumSizes (front ++ [x]))
    (hxle : x.2.size ≤ limit) :
    ∃ front', evictLoop limit (front ++ [x]) u
        = (front' ++ [x], sumSizes (front' ++ [x])) ∧
      List.IsSuffix front' front := by
  induction front generalizing u with
  | nil =>
    have hx : u = x.2.size := by
      rw [hu]
      simp [sumSizes]
    rw [List.nil_append, evictLoop]
    obtain ⟨k, e⟩ := x
    rw [if_pos (by simpa [hx] using hxle)]
    exact ⟨[], by simp [hu], List.nil_suffix⟩
  | cons y front ih =>
    obtain ⟨k, e⟩ := y
    rw [List.cons_append, evictLoop]
    by_cases hle : u ≤ limit
    · rw [if_pos hle]
      refine ⟨(k, e) :: front, ?_, List.suffix_refl _⟩
      rw [hu]
      rfl
    · rw [if_neg hle]
      have hu' : u - e.size = sumSizes (front ++ [x]) := by
        rw [List.cons_append] at hu
        simp only [sumSizes, List.map_cons, List.sum_cons] at hu
        simp only [sumSizes]
        omega
      obtain ⟨front', h1, h2⟩ := ih hu'
      exact ⟨front', h1, h2.trans (List.suffix_cons _ _)⟩

/-- A finished load (all bytes consumed) breaks out of the chunk loop on
the empty read, leaving the complete file as the resident entry. -/
theorem loadInv_complete {env : Env} {fp : String} {bs : List Nat} {s : CState}
    (hinv : LoadInv env fp bs s bs.length) (hne : bs ≠ []) :
    (chunkStep env s).loading = none ∧
    lookupEntry (chunkStep env s).cache fp = some ⟨bs, bs.length⟩ := by
  obtain ⟨hfs, hoff, hfit, hsum, hle, hcase⟩ := hinv
  have hlen0 : ¬(bs.length = 0) := by
    intro h
    exact hne (List.length_eq_zero.1 h)
  rw [if_neg hlen0] at hcase
  obtain ⟨hld, front, hcache, hnin⟩ := hcase
  have e1 : chunkStep env s = chunkStepTriple env s fp bs.length true := by
    unfold chunkStep
    rw [hld]
  have e2 : chunkStepTriple env s fp bs.length true
      = chunkStepLoad env s fp bs.length true bs := by
    unfold chunkStepTriple
    rw [hfs]
  have e3 : chunkStepLoad env s fp bs.length true bs = { s with loading := none } := by
    unfold chunkStepLoad
    rw [if_pos (by simp [List.drop_length])]
  rw [e1, e2, e3]
  refine ⟨rfl, ?_⟩
  show lookupEntry s.cache fp = some ⟨bs, bs.length⟩
  rw [hcache]
  have hent : (⟨bs.take bs.length, bs.length⟩ : CEntry) = ⟨bs, bs.length⟩ := by
    simp [List.take_length]
  rw [← hent]
  exact lookupEntry_append_not_mem hnin

/-- One chunk step of an unfinished load consumes the next chunk and
re-establishes the load invariant at the advanced offset. -/
theorem loadInv_chunkStep {env : Env} {fp : String} {bs : List Nat} {s : CState}
    {off : Nat} (hinv : LoadInv env fp bs s off) (hlt : off < bs.length)
    (hcs : 0 < env.chunkSize) :
    LoadInv env fp bs (chunkStep env s) (off + min env.chunkSize (bs.length - off)) := by
  obtain ⟨hfs, hoff, hfit, hsum, hle, hcase⟩ := hinv
  have hcl : ((bs.drop off).take env.chunkSize).length
      = min env.chunkSize (bs.length - off) := by
    simp [List.length_take, List.length_drop]
  have hclpos : 0 < min env.chunkSize (bs.length - off) := by omega
  have hemp : ¬(((bs.drop off).take env.chunkSize).isEmpty = true) := by
    intro h
    have h0 : ((bs.drop off).take env.chunkSize).length = 0 := by
      rw [List.isEmpty_iff] at h
      rw [h]
      rfl
    omega
  by_cases hoff0 : off = 0
  · subst hoff0
    rw [if_pos rfl] at hcase
    obtain ⟨hld, hnin⟩ := hcase
    have hlk : lookupEntry s.cache fp = none := (lookupEntry_none_iff _ _).2 hnin
    have e1 : chunkStep env s = chunkStepTriple env s fp 0 false := by
      unfold chunkStep
      rw [hld]
    have e2 : chunkStepTriple env s fp 0 false = chunkStepLoad env s fp 0 false bs := by
      unfold chunkStepTriple
      rw [hfs]
    rw [e1, e2]
    unfold chunkStepLoad LoadInv
    rw [if_neg hemp, hlk]
    have hxle : ((bs.drop 0).take env.chunkSize).length ≤ env.memoryLimit := by omega
    have hu : s.total + ((bs.drop 0).take env.chunkSize).length
        = sumSizes (s.cache ++
          [(fp, ⟨bs.take (0 + ((bs.drop 0).take env.chunkSize).length),
            ((bs.drop 0).take env.chunkSize).length⟩)]) := by
      rw [sumSizes_append, hsum]
      simp [sumSizes]
    obtain ⟨front', hev, hsuf⟩ := evictLoop_last hu hxle
    refine ⟨hfs, by omega, hfit, ?_, ?_, ?_⟩
    · show (evictLoop _ _ _).2 = sumSizes (evictLoop _ _ _).1
      exact (evictLoop_spec _ _ _ hu).1
    · show (evictLoop _ _ _).2 ≤ env.memoryLimit
      exact (evictLoop_spec _ _ _ hu).2
    · rw [if_neg (by omega : ¬(0 + min env.chunkSize (bs.length - 0) = 0))]
      constructor
      · show some (fp, 0 + ((bs.drop 0).take env.chunkSize).length, true)
          = some (fp, 0 + min env.chunkSize (bs.length - 0), true)
        rw [hcl]
      · refine ⟨front', ?_, ?_⟩
        · show (evictLoop _ _ _).1 = _
          rw [hev]
          have : (⟨bs.take (0 + ((bs.drop 0).take env.chunkSize).length),
              ((bs.drop 0).take env.chunkSize).length⟩ : CEntry)
              = ⟨bs.take (0 + min env.chunkSize (bs.length - 0)),
                0 + min env.chunkSize (bs.length - 0)⟩ := by
            rw [hcl]
            simp
          rw [this]
        · intro hmem
          exact hnin ((hsuf.sublist.map Prod.fst).subset hmem)
  · rw [if_neg hoff0] at hcase
    obtain ⟨hld, front, hcache, hnin⟩ := hcase
    have hlk : lookupEntry s.cache fp = some ⟨bs.take off, off⟩ := by
      rw [hcache]
      exact lookupEntry_append_not_mem hnin
    have e1 : chunkStep env s = chunkStepTriple env s fp off true := by
      unfold chunkStep
      rw [hld]
    have e2 : chunkStepTriple env s fp off true = chunkStepLoad env s fp off true bs := by
      unfold chunkStepTriple
      rw [hfs]
    rw [e1, e2]
    unfold chunkStepLoad LoadInv
    rw [if_neg hemp, hlk]
    have hrk : removeKey s.cache fp = front := by
      rw [hcache, removeKey_append, removeKey_of_not_mem hnin]
      simp [removeKey]
    have hsumfront : sumSizes s.cache = sumSizes front + off := by
      rw [hcache, sumSizes_append]
      simp [sumSizes]
    have hxle : (⟨bs.take off, off⟩ : CEntry).size
        + ((bs.drop off).take env.chunkSize).length ≤ env.memoryLimit := by
      show off + ((bs.drop off).take env.chunkSize).length ≤ env.memoryLimit
      omega
    rw [hrk]
    have hu : s.total + ((bs.drop off).take env.chunkSize).length
        = sumSizes (front ++
          [(fp, ⟨if true = true then
              bs.take (off + ((bs.drop off).take env.chunkSize).length)
            else (⟨bs.take off, off⟩ : CEntry).data,
            (⟨bs.take off, off⟩ : CEntry).size
              + ((bs.drop off).take env.chunkSize).length⟩)]) := by
      rw [sumSizes_append, hsum, hsumfront]
      simp [sumSizes]
      omega
    obtain ⟨front', hev, hsuf⟩ := evictLoop_last hu hxle
    refine ⟨hfs, by omega, hfit, ?_, ?_, ?_⟩
    · show (evictLoop _ _ _).2 = sumSizes (evictLoop _ _ _).1
      exact (evictLoop_spec _ _ _ hu).1
    · show (evictLoop _ _ _).2 ≤ env.memoryLimit
      exact (evictLoop_spec _ _ _ hu).2
    · rw [if_neg (by omega : ¬(off + min env.chunkSize (bs.length - off) = 0))]
      constructor
      · show some (fp, off + ((bs.drop off).take env.chunkSize).length, true)
          = some (fp, off + min env.chunkSize (bs.length - off), true)
        rw [hcl]
      · refine ⟨front', ?_, ?_⟩
        · show (evictLoop _ _ _).1 = _
          rw [hev]
          have : (⟨if true = true then
                bs.take (off + ((bs.drop off).take env.chunkSize).length)
              else (⟨bs.take off, off⟩ : CEntry).data,
              (⟨bs.take off, off⟩ : CEntry).size
                + ((bs.drop off).take env.chunkSize).length⟩ : CEntry)
              = ⟨bs.take (off + min env.chunkSize (bs.length - off)),
                off + min env.chunkSize (bs.length - off)⟩ := by
            rw [hcl]
            simp
          rw [this]
        · intro hmem
          exact hnin ((hsuf.sublist.map Prod.fst).subset hmem)

/-- Running the chunk loop with enough fuel completes the load: the
resident entry holds exactly the backing bytes. -/
theorem loadInv_run {env : Env} {fp : String} {bs : List Nat}
    (hcs : 0 < env.chunkSize) (hne : bs ≠ []) :
    ∀ (fuel off : Nat) (s : CState), LoadInv env fp bs s off →
      bs.length - off + 1 ≤ fuel →
      (runChunks env s fuel).loading = none ∧
      lookupEntry (runChunks env s fuel).cache fp = some ⟨bs, bs.length⟩ := by
  intro fuel
  induction fuel with
  | zero =>
    intro off s _ hf
    omega
  | succ f ih =>
    intro off s hinv hf
    by_cases hoff : off = bs.length
    · subst hoff
      have hdone := loadInv_complete hinv hne
      rw [runChunks, runChunks_of_load_none hdone.1 f]
      exact hdone
    · have hlt : off < bs.length := lt_of_le_of_ne hinv.2.1 hoff
      have hnext := loadInv_chunkStep hinv hlt hcs
      have hfuel : bs.length - (off + min env.chunkSize (bs.length - off)) + 1 ≤ f := by
        omega
      rw [runChunks]
      exact ih _ _ hnext hfuel

/-- C3 counterexample: requesting the three-byte file `f` under a
two-byte chunk size and running a single fetch-worker chunk iteration
reaches a state whose cache entry for `f` holds only the first chunk:
the lookup returns the non-empty, in-range slice `[1, 2]`, which is not
the backing slice `[1, 2, 3]`, so a partially loaded file is observable
as a cache entry. -/
theorem c3_counterexample :
    Reach env3 (chunkStep env3 (beginFetch env3 ⟨[], 0, ["f"], none⟩)) ∧
    readCacheVal (chunkStep env3 (beginFetch env3 ⟨[], 0, ["f"], none⟩)) "f" 3 0
      = some [1, 2] ∧
    env3.fs "f" = some [1, 2, 3] ∧
    (([1, 2, 3] : List Nat).drop 0).take 3 = [1, 2, 3] ∧
    ([1, 2] : List Nat) ≠ [] ∧
    ([1, 2] : List Nat) ≠ [1, 2, 3] := by
  refine ⟨Reach.fetchChunk (Reach.fetchStart
    (@Reach.request env3 initCState ⟨[], 0, ["f"], none⟩ "f" Reach.init (by rfl))),
    by rfl, by rfl, by rfl, by decide, by decide⟩

/-- C3 amended: cache entries are populated incrementally chunk by
chunk, so mid-load lookups can observe a partial prefix; but when the
worker begins a fresh load of a queued non-empty file that exists, fits
the budget, and is not yet resident, running the chunk loop to
completion leaves the entry holding exactly the file's bytes. -/
theorem c3_whole_file_after_load (env : Env) (s : CState) (fp : String)
    (bs : List Nat) (rest : List String)
    (hfs : env.fs fp = some bs) (hne : bs ≠ []) (hfit : bs.length ≤ env.memoryLimit)
    (hcs : 0 < env.chunkSize) (hload : s.loading = none) (hq : s.queue = fp :: rest)
    (hnin : fp ∉ cacheKeys s.cache) (hsum : s.total = sumSizes s.cache)
    (hle : s.total ≤ env.memoryLimit) :
    (runChunks env (beginFetch env s) (bs.length + 1)).loading = none ∧
    lookupEntry (runChunks env (beginFetch env s) (bs.length + 1)).cache fp
      = some ⟨bs, bs.length⟩ := by
  have hbf : beginFetch env s = { s with queue := rest, loading := some (fp, 0, false) } := by
    unfold beginFetch
    rw [hload, hq]
    show beginFetchItem env s fp rest = _
    unfold beginFetchItem
    rw [hfs, (lookupEntry_none_iff _ _).2 hnin]
  have hinv : LoadInv env fp bs (beginFetch env s) 0 := by
    rw [hbf]
    refine ⟨hfs, Nat.zero_le _, hfit, hsum, hle, ?_⟩
    rw [if_pos rfl]
    exact ⟨rfl, hnin⟩
  exact loadInv_run hcs hne (bs.length + 1) 0 (beginFetch env s) hinv (by omega)

/-- Witness for C3's amended theorem: the three-byte file `f` loads to
completion in two chunks and its entry then holds the whole file. -/
theorem c3_whole_file_after_load_witness :
    (runChunks env3 (beginFetch env3 ⟨[], 0, ["f"], none⟩) 4).loading = none ∧
    lookupEntry (runChunks env3 (beginFetch env3 ⟨[], 0, ["f"], none⟩) 4).cache "f"
      = some ⟨[1, 2, 3], 3⟩ :=
  c3_whole_file_after_load env3 ⟨[], 0, ["f"], none⟩ "f" [1, 2, 3] []
    (by rfl) (by decide) (by decide) (by decide) (by rfl) (by rfl) (by decide)
    (by decide) (by decide)
